import Mathlib

/-
Shallow embedding of the PII detector core in src/binary.py (class PIIDetector).
Records are ordered association lists of field names and scalar values; the
regular expressions of the Pattern Library are translated into executable
character-list matchers that follow the semantics of Python re.match on the
concrete patterns of the source (start-anchored search with word-boundary
markers).  ASCII strings are assumed, matching Char.isAlphanum and friends.
-/

namespace PII

/-- Scalar values a decoded record may hold: strings, integers, or null.
The Python source also admits floats; numeric values are modelled as
integers, for which the coercion str(int(v)) agrees with str(v). -/
inductive Value where
  | vstr (s : String)
  | vint (n : Int)
  | vnull
deriving DecidableEq, Repr

/-- Python test val is None. -/
def Value.isNull : Value → Bool
  | .vnull => true
  | _ => false

/-- Python str() applied to a value (str(None) = "None" is unreachable in the
detector because null values are filtered before any str conversion). -/
def strOfValue : Value → String
  | .vstr s => s
  | .vint n => toString n
  | .vnull => "None"

/-- Python truthiness of a scalar value: None, the empty string and 0 are falsy. -/
def truthy : Value → Bool
  | .vnull => false
  | .vstr s => s != ""
  | .vint n => n != 0

/-- Python truthiness of dict.get: absent keys give None, which is falsy. -/
def truthyOpt : Option Value → Bool
  | none => false
  | some v => truthy v

/-- Python regex word character for ASCII input: letters, digits, underscore. -/
def isWordChar (c : Char) : Bool :=
  c.isAlphanum || c == '_'

/-- Word boundary between a word character and the rest of the input: holds at
end of input or when the next character is a non-word character. -/
def boundaryAfter : List Char → Bool
  | [] => true
  | c :: _ => !isWordChar c

/-- re.match of the phone pattern (word boundary, one of 6-9, nine digits, word
boundary): the first character is in 6-9, the next nine are digits, and the ten
digit run ends at a word boundary.  The leading boundary holds automatically at
position zero before a digit. -/
def phoneMatch : List Char → Bool
  | [] => false
  | c :: rest =>
    decide ('6' ≤ c ∧ c ≤ '9') && decide ((rest.take 9).length = 9) &&
      (rest.take 9).all Char.isDigit && boundaryAfter (rest.drop 9)

/-- re.match of the aadhar pattern (word boundary, twelve digits, word
boundary). -/
def aadharMatch (l : List Char) : Bool :=
  decide ((l.take 12).length = 12) && (l.take 12).all Char.isDigit &&
    boundaryAfter (l.drop 12)

/-- re.match of the passport pattern (word boundary, one uppercase letter,
seven digits, word boundary). -/
def passportMatch : List Char → Bool
  | [] => false
  | c :: rest =>
    c.isUpper && decide ((rest.take 7).length = 7) &&
      (rest.take 7).all Char.isDigit && boundaryAfter (rest.drop 7)

/-- The fixed alternation of payment-handle suffixes of the upi pattern. -/
def upiHandles : List String :=
  ["paytm", "ybl", "okaxis", "axisbank", "hdfcbank", "icici", "sbi", "kotak",
   "phonepe", "ibl", "unionbank", "canara", "pnb", "andhra", "federal",
   "karnataka", "punjab", "maharashtra", "axis", "indianbank", "yesbank"]

/-- re.match of the upi pattern: a nonempty run of word characters (the at sign
is not a word character, so the local part is exactly the maximal leading word
run), a literal at sign, then one handle of the alternation followed by a word
boundary.  Backtracking over the ordered alternation is an existential over the
handle list. -/
def upiMatch (l : List Char) : Bool :=
  let u := l.takeWhile isWordChar
  !u.isEmpty &&
    (match l.drop u.length with
     | '@' :: tail =>
        upiHandles.any fun h =>
          h.data.isPrefixOf tail && boundaryAfter (tail.drop h.data.length)
     | _ => false)

/-- Character class of the local part of the email pattern. -/
def isEmailLocalChar (c : Char) : Bool :=
  c.isAlphanum || c == '.' || c == '_' || c == '%' || c == '+' || c == '-'

/-- Character class of the domain part of the email pattern. -/
def isEmailDomainChar (c : Char) : Bool :=
  c.isAlphanum || c == '.' || c == '-'

/-- Tail of the email pattern after the final dot: at least two letters then a
word boundary.  Every letter is a word character, so only the maximal letter
run can be followed by a word boundary. -/
def alphaRunBoundary (l : List Char) : Bool :=
  decide (2 ≤ (l.takeWhile Char.isAlpha).length) &&
    boundaryAfter (l.dropWhile Char.isAlpha)

/-- Tail of the email pattern after the at sign: a nonempty run of domain
characters, a literal dot, then the letter tail.  The dot itself belongs to the
domain class, so backtracking amounts to choosing which dot inside the maximal
domain run separates domain and extension. -/
def emailTailMatch (tail : List Char) : Bool :=
  let n := (tail.takeWhile isEmailDomainChar).length
  (List.range n).any fun i =>
    decide (1 ≤ i) && (tail[i]? == some '.') && alphaRunBoundary (tail.drop (i + 1))

/-- re.match of the email pattern.  The leading word boundary forces the first
character to be a word character; the at sign is outside the local class, so
the local part is the maximal leading run of local characters. -/
def emailMatch (l : List Char) : Bool :=
  match l with
  | [] => false
  | c :: _ =>
    isWordChar c &&
      (let u := l.takeWhile isEmailLocalChar
       match l.drop u.length with
       | '@' :: tail => emailTailMatch tail
       | _ => false)

/-- Python dollar anchor: end of input, or just before one final newline. -/
def endAnchor (l : List Char) : Bool :=
  l == [] || l == ['\n']

/-- re.match of the fully anchored name pattern: uppercase letter, a nonempty
lowercase run, one space, uppercase letter, a nonempty lowercase run, then the
dollar anchor.  The characters after each lowercase run are non-lowercase, so
only the maximal runs can be followed by the space and the anchor. -/
def fullNameMatch (l : List Char) : Bool :=
  match l with
  | [] => false
  | c1 :: rest =>
    c1.isUpper &&
      (decide (1 ≤ (rest.takeWhile Char.isLower).length) &&
        (match rest.dropWhile Char.isLower with
         | ' ' :: c2 :: rest2 =>
           c2.isUpper &&
             (decide (1 ≤ (rest2.takeWhile Char.isLower).length) &&
               endAnchor (rest2.dropWhile Char.isLower))
         | _ => false))

/-- Word test of an optional preceding character; the start of the input
behaves like a non-word character for boundary purposes. -/
def wordOpt : Option Char → Bool
  | none => false
  | some c => isWordChar c

/-- re.search of the six digit PIN pattern at a fixed position: a word boundary
before, six digits, a word boundary after. -/
def pinAt (prev : Option Char) (l : List Char) : Bool :=
  !wordOpt prev && decide ((l.take 6).length = 6) && (l.take 6).all Char.isDigit &&
    boundaryAfter (l.drop 6)

/-- re.search of the six digit PIN pattern: tries every position, remembering
the previous character for the leading boundary. -/
def hasPinAux (prev : Option Char) : List Char → Bool
  | [] => false
  | c :: rest => pinAt prev (c :: rest) || hasPinAux (some c) rest

/-- has_address_components of the source: lowercase the value, then require a
digit somewhere, a comma somewhere, and a six digit run bounded by word
boundaries somewhere (unanchored sub-matches). -/
def has_address_components (v : String) : Bool :=
  let t := v.data.map Char.toLower
  t.any Char.isDigit && t.contains ',' && hasPinAux none t

/-- is_phone_number of the source.  The int coercion branch of the source is
the identity here because the detector always passes the str form. -/
def is_phone_number (v : String) : Bool := phoneMatch v.data

/-- is_aadhar of the source. -/
def is_aadhar (v : String) : Bool := aadharMatch v.data

/-- is_passport of the source. -/
def is_passport (v : String) : Bool := passportMatch v.data

/-- is_upi_id of the source. -/
def is_upi_id (v : String) : Bool := upiMatch v.data

/-- is_email of the source. -/
def is_email (v : String) : Bool := emailMatch v.data

/-- is_full_name of the source. -/
def is_full_name (v : String) : Bool := fullNameMatch v.data

/-- A decoded record: an ordered mapping of field names to scalar values,
modelled as an association list (Python dict keys are unique; theorems that
need uniqueness assume the key list has no duplicates). -/
abbrev Record := List (String × Value)

/-- Reading a key of the record, first occurrence (Python dict access). -/
def lookupR : Record → String → Option Value
  | [], _ => none
  | (k, v) :: t, key => if k = key then some v else lookupR t key

/-- Condition of the first branch of the detect_standalone_pii chain. -/
def condPhone (kv : String × Value) : Bool :=
  kv.1 == "phone" || is_phone_number (strOfValue kv.2)

/-- Condition of the second branch of the detect_standalone_pii chain. -/
def condAadhar (kv : String × Value) : Bool :=
  kv.1 == "aadhar" || is_aadhar (strOfValue kv.2)

/-- Condition of the third branch of the detect_standalone_pii chain. -/
def condPassport (kv : String × Value) : Bool :=
  kv.1 == "passport" || is_passport (strOfValue kv.2)

/-- Condition of the fourth branch of the detect_standalone_pii chain. -/
def condUpi (kv : String × Value) : Bool :=
  kv.1 == "upi_id" || is_upi_id (strOfValue kv.2)

/-- Loop body of detect_standalone_pii: null values are skipped; a field is
flagged when its name is a standalone name or its str form matches the
corresponding recognizer, and the flag together with the field list is
accumulated. -/
def standStep (acc : Bool × List String) (kv : String × Value) : Bool × List String :=
  if kv.2.isNull then acc
  else
    if condPhone kv then (true, acc.2 ++ [kv.1])
    else if condAadhar kv then (true, acc.2 ++ [kv.1])
    else if condPassport kv then (true, acc.2 ++ [kv.1])
    else if condUpi kv then (true, acc.2 ++ [kv.1])
    else acc

/-- detect_standalone_pii of the source. -/
def detect_standalone_pii (data : Record) : Bool × List String :=
  data.foldl standStep (false, [])

/-- Mutable state of the detect_combinatorial_pii loop. -/
structure ComboState where
  hasFullName : Bool
  hasEmail : Bool
  hasAddress : Bool
  hasDevice : Bool
  fields : List String
deriving DecidableEq, Repr

/-- Condition of the full-name branch of the detect_combinatorial_pii chain. -/
def condName (kv : String × Value) : Bool :=
  kv.1 == "name" && is_full_name (strOfValue kv.2)

/-- Condition of the email branch of the detect_combinatorial_pii chain. -/
def condEmail (kv : String × Value) : Bool :=
  kv.1 == "email" && is_email (strOfValue kv.2)

/-- Condition of the address branch of the detect_combinatorial_pii chain. -/
def condAddress (kv : String × Value) : Bool :=
  kv.1 == "address" && has_address_components (strOfValue kv.2)

/-- Condition of the device branch of the detect_combinatorial_pii chain:
name presence alone, the value is not inspected. -/
def condDevice (kv : String × Value) : Bool :=
  kv.1 == "device_id" || kv.1 == "ip_address"

/-- Loop body of detect_combinatorial_pii: null values are skipped, then the
elif chain sets one signal flag and appends the field name. -/
def comboStep (st : ComboState) (kv : String × Value) : ComboState :=
  if kv.2.isNull then st
  else
    if condName kv then
      { st with hasFullName := true, fields := st.fields ++ [kv.1] }
    else if condEmail kv then
      { st with hasEmail := true, fields := st.fields ++ [kv.1] }
    else if condAddress kv then
      { st with hasAddress := true, fields := st.fields ++ [kv.1] }
    else if condDevice kv then
      { st with hasDevice := true, fields := st.fields ++ [kv.1] }
    else st

/-- Python sum over a list of booleans. -/
def boolSum (l : List Bool) : Nat :=
  l.foldl (fun n b => n + (if b then 1 else 0)) 0

/-- detect_combinatorial_pii of the source: run the loop, add the name-parts
signal from the truthiness of first_name and last_name, count the five
signals, and flag at threshold two. -/
def detect_combinatorial_pii (data : Record) : Bool × List String × Nat :=
  let st := data.foldl comboStep ⟨false, false, false, false, []⟩
  let hasNameParts :=
    truthyOpt (lookupR data "first_name") && truthyOpt (lookupR data "last_name")
  let fields :=
    if hasNameParts then st.fields ++ ["first_name", "last_name"] else st.fields
  let count :=
    boolSum [st.hasFullName, st.hasEmail, st.hasAddress, st.hasDevice, hasNameParts]
  (decide (2 ≤ count), fields, count)

/-- Python split of a string on one separator character: never empty, keeps
empty pieces between adjacent separators. -/
def splitAtChar (sep : Char) : List Char → List (List Char)
  | [] => [[]]
  | c :: rest =>
    if c == sep then [] :: splitAtChar sep rest
    else
      match splitAtChar sep rest with
      | h :: t => (c :: h) :: t
      | [] => [[c]]

/-- Python whitespace split without arguments: splits on runs of whitespace and
drops empty pieces. -/
def pySplitWs (l : List Char) : List (List Char) :=
  let p := l.foldr
    (fun c (acc : List Char × List (List Char)) =>
      if c.isWhitespace then ([], if acc.1.isEmpty then acc.2 else acc.1 :: acc.2)
      else (c :: acc.1, acc.2))
    ([], [])
  if p.1.isEmpty then p.2 else p.1 :: p.2

/-- Local-part masking shared by the upi and email rules: keep first and last
character when the length exceeds two, otherwise mask everything. -/
def maskLocalPart (u : List Char) : List Char :=
  if 2 < u.length then
    u.take 1 ++ List.replicate (u.length - 2) 'X' ++ u.drop (u.length - 1)
  else List.replicate u.length 'X'

/-- Token masking shared by the name and first/last-name rules: keep the first
character and mask the rest when the length exceeds one, otherwise one X. -/
def maskToken (p : List Char) : List Char :=
  if 1 < p.length then p.take 1 ++ List.replicate (p.length - 1) 'X'
  else ['X']

/-- Python str.upper on ASCII input. -/
def upperChars (l : List Char) : List Char := l.map Char.toUpper

/-- mask_value of the source on the character list of the str form of a
non-null value: the elif chain dispatches on field name or matching recognizer
and produces the masked characters.  Python slices become take and drop. -/
def maskChars (key : String) (s : List Char) : List Char :=
  if key == "phone" || phoneMatch s then
    if 10 ≤ s.length then
      s.take 2 ++ List.replicate (s.length - 4) 'X' ++ s.drop (s.length - 2)
    else List.replicate s.length 'X'
  else if key == "aadhar" || aadharMatch s then
    if 12 ≤ s.length then
      s.take 3 ++ List.replicate 6 'X' ++ s.drop (s.length - 3)
    else List.replicate s.length 'X'
  else if key == "passport" || passportMatch s then
    if 3 ≤ s.length then
      s.take 1 ++ List.replicate (s.length - 2) 'X' ++ s.drop (s.length - 1)
    else List.replicate s.length 'X'
  else if key == "upi_id" || upiMatch s then
    match splitAtChar '@' s with
    | [u, d] => maskLocalPart u ++ '@' :: d
    | _ => List.replicate s.length 'X'
  else if key == "email" || emailMatch s then
    match splitAtChar '@' s with
    | [u, d] => maskLocalPart u ++ '@' :: d
    | _ => List.replicate s.length 'X'
  else if key == "name" && fullNameMatch s then
    List.intercalate [' '] ((pySplitWs s).map maskToken)
  else if key == "first_name" || key == "last_name" then maskToken s
  else if key == "address" then "[REDACTED_ADDRESS]".data
  else if key == "device_id" || key == "ip_address" then
    "[REDACTED_".data ++ upperChars key.data ++ "]".data
  else "[REDACTED_PII]".data

/-- mask_value of the source: null passes through; otherwise the str form is
masked.  The int coercion of the source is the identity on integer values. -/
def mask_value (key : String) (value : Value) : Value :=
  match value with
  | .vnull => .vnull
  | v => .vstr (String.mk (maskChars key (strOfValue v).data))

/-- Guarded token masking with explicit character indexing, as written in the
source (p[0] is only evaluated when the length exceeds one). -/
def maskTokenChecked (p : List Char) : Option (List Char) :=
  if 1 < p.length then (p[0]?).map fun c => c :: List.replicate (p.length - 1) 'X'
  else some ['X']

/-- mask_value with every raw character indexing of the source made explicit as
an optional access: s[0] and s[-1] of the passport rule, p[0] of the name rule
and s[0] of the first/last-name rule.  Python slices never fail and stay
total. -/
def maskChecked (key : String) (s : List Char) : Option (List Char) :=
  if key == "phone" || phoneMatch s then
    some (if 10 ≤ s.length then
      s.take 2 ++ List.replicate (s.length - 4) 'X' ++ s.drop (s.length - 2)
    else List.replicate s.length 'X')
  else if key == "aadhar" || aadharMatch s then
    some (if 12 ≤ s.length then
      s.take 3 ++ List.replicate 6 'X' ++ s.drop (s.length - 3)
    else List.replicate s.length 'X')
  else if key == "passport" || passportMatch s then
    if 3 ≤ s.length then
      match s[0]?, s[s.length - 1]? with
      | some a, some b => some ([a] ++ List.replicate (s.length - 2) 'X' ++ [b])
      | _, _ => none
    else some (List.replicate s.length 'X')
  else if key == "upi_id" || upiMatch s then
    some (match splitAtChar '@' s with
    | [u, d] => maskLocalPart u ++ '@' :: d
    | _ => List.replicate s.length 'X')
  else if key == "email" || emailMatch s then
    some (match splitAtChar '@' s with
    | [u, d] => maskLocalPart u ++ '@' :: d
    | _ => List.replicate s.length 'X')
  else if key == "name" && fullNameMatch s then
    ((pySplitWs s).mapM maskTokenChecked).map (List.intercalate [' '])
  else if key == "first_name" || key == "last_name" then maskTokenChecked s
  else if key == "address" then some "[REDACTED_ADDRESS]".data
  else if key == "device_id" || key == "ip_address" then
    some ("[REDACTED_".data ++ upperChars key.data ++ "]".data)
  else some "[REDACTED_PII]".data

/-- mask_value with explicit optional character accesses. -/
def maskValueChecked (key : String) (value : Value) : Option Value :=
  match value with
  | .vnull => some .vnull
  | v => (maskChecked key (strOfValue v).data).map fun l => .vstr (String.mk l)

/-- One masking assignment of process_record: when the field is present, its
value is replaced in place by its mask; order and the other fields are kept. -/
def maskField (r : Record) (f : String) : Record :=
  if (lookupR r f).isSome then
    r.map fun kv => if kv.1 = f then (kv.1, mask_value f kv.2) else kv
  else r

/-- process_record of the source: run both classifiers, and when the record is
PII mask the standalone fields in place and, only when the combinatorial flag
holds, also the combinatorial fields; otherwise return the record unchanged. -/
def process_record (record : Record) : Bool × Record :=
  let sres := detect_standalone_pii record
  let cres := detect_combinatorial_pii record
  let is_pii := sres.1 || cres.1
  if is_pii then
    let red1 := sres.2.foldl maskField record
    let red2 := if cres.1 then cres.2.1.foldl maskField red1 else red1
    (is_pii, red2)
  else (is_pii, record)

/-! Specification-side descriptions of the loops, used to state and prove the
claims: per-entry hit predicates, recursive field-list builders, and the five
combinatorial signals as direct existential scans of the record. -/

/-- Key list of a record. -/
def keysOf (r : Record) : List String := r.map Prod.fst

/-- One entry of the record is flagged by the standalone chain: non-null value
and some branch condition holds. -/
def standHit (kv : String × Value) : Bool :=
  !kv.2.isNull && (condPhone kv || condAadhar kv || condPassport kv || condUpi kv)

/-- Flagged-field list of the standalone classifier, written as a direct
recursion over the record. -/
def standFieldsR : Record → List String
  | [] => []
  | kv :: t => (if standHit kv then [kv.1] else []) ++ standFieldsR t

/-- One entry of the record is flagged by the combinatorial chain. -/
def comboHit (kv : String × Value) : Bool :=
  !kv.2.isNull && (condName kv || condEmail kv || condAddress kv || condDevice kv)

/-- Loop part of the contributing-field list of the combinatorial classifier,
written as a direct recursion over the record. -/
def comboFieldsR : Record → List String
  | [] => []
  | kv :: t => (if comboHit kv then [kv.1] else []) ++ comboFieldsR t

/-- Signal one: some field named name with a non-null value matching the
full-name recognizer. -/
def sigFullName (r : Record) : Bool :=
  r.any fun kv => !kv.2.isNull && condName kv

/-- Signal two: some field named email with a non-null value matching the
email recognizer. -/
def sigEmail (r : Record) : Bool :=
  r.any fun kv => !kv.2.isNull && condEmail kv

/-- Signal three: some field named address with a non-null value having all
three address components. -/
def sigAddress (r : Record) : Bool :=
  r.any fun kv => !kv.2.isNull && condAddress kv

/-- Signal four: some field named device_id or ip_address with a non-null
value. -/
def sigDevice (r : Record) : Bool :=
  r.any fun kv => !kv.2.isNull && condDevice kv

/-- Signal five: first_name and last_name both present with truthy values. -/
def sigNameParts (r : Record) : Bool :=
  truthyOpt (lookupR r "first_name") && truthyOpt (lookupR r "last_name")

/-- The effect of the masking loop of process_record on the value of one key:
each occurrence of the key in the field list masks the current value again. -/
def applyMasks (fs : List String) (k : String) (v : Value) : Value :=
  fs.foldl (fun w f => if f = k then mask_value f w else w) v

/-! Bridge lemmas: the imperative accumulator loops of the two classifiers
equal their recursive descriptions. -/

theorem foldl_standStep (data : Record) : ∀ b l,
    data.foldl standStep (b, l) = (b || data.any standHit, l ++ standFieldsR data) := by
  induction data with
  | nil => intro b l; simp [standFieldsR]
  | cons kv t ih =>
    intro b l
    rw [List.foldl_cons]
    by_cases h0 : kv.2.isNull = true
    · rw [show standStep (b, l) kv = (b, l) from by simp [standStep, h0]]
      simp [ih, standHit, h0, standFieldsR]
    · simp only [Bool.not_eq_true] at h0
      by_cases h1 : condPhone kv = true
      · rw [show standStep (b, l) kv = (true, l ++ [kv.1]) from by simp [standStep, h0, h1]]
        simp [ih, standHit, h0, h1, standFieldsR]
      · by_cases h2 : condAadhar kv = true
        · rw [show standStep (b, l) kv = (true, l ++ [kv.1]) from by
            simp [standStep, h0, h1, h2]]
          simp [ih, standHit, h0, h1, h2, standFieldsR]
        · by_cases h3 : condPassport kv = true
          · rw [show standStep (b, l) kv = (true, l ++ [kv.1]) from by
              simp [standStep, h0, h1, h2, h3]]
            simp [ih, standHit, h0, h1, h2, h3, standFieldsR]
          · by_cases h4 : condUpi kv = true
            · rw [show standStep (b, l) kv = (true, l ++ [kv.1]) from by
                simp [standStep, h0, h1, h2, h3, h4]]
              simp [ih, standHit, h0, h1, h2, h3, h4, standFieldsR]
            · rw [show standStep (b, l) kv = (b, l) from by
                simp [standStep, h0, h1, h2, h3, h4]]
              simp [ih, standHit, h0, h1, h2, h3, h4, standFieldsR]

theorem detect_standalone_eq (r : Record) :
    detect_standalone_pii r = (r.any standHit, standFieldsR r) := by
  have := foldl_standStep r false []
  simpa [detect_standalone_pii] using this

theorem condName_key {kv : String × Value} (h : condName kv = true) : kv.1 = "name" := by
  simp [condName, Bool.and_eq_true] at h
  exact h.1

theorem condEmail_key {kv : String × Value} (h : condEmail kv = true) : kv.1 = "email" := by
  simp [condEmail, Bool.and_eq_true] at h
  exact h.1

theorem condAddress_key {kv : String × Value} (h : condAddress kv = true) : kv.1 = "address" := by
  simp [condAddress, Bool.and_eq_true] at h
  exact h.1

theorem foldl_comboStep (data : Record) : ∀ st : ComboState,
    data.foldl comboStep st =
      ⟨st.hasFullName || sigFullName data, st.hasEmail || sigEmail data,
       st.hasAddress || sigAddress data, st.hasDevice || sigDevice data,
       st.fields ++ comboFieldsR data⟩ := by
  induction data with
  | nil => intro st; simp [sigFullName, sigEmail, sigAddress, sigDevice, comboFieldsR]
  | cons kv t ih =>
    intro st
    rw [List.foldl_cons]
    by_cases h0 : kv.2.isNull = true
    · rw [show comboStep st kv = st from by simp [comboStep, h0]]
      simp [ih, sigFullName, sigEmail, sigAddress, sigDevice, comboHit, comboFieldsR, h0]
    · simp only [Bool.not_eq_true] at h0
      by_cases h1 : condName kv = true
      · have hk := condName_key h1
        have e2 : condEmail kv = false := by simp [condEmail, hk]
        have e3 : condAddress kv = false := by simp [condAddress, hk]
        have e4 : condDevice kv = false := by simp [condDevice, hk]
        rw [show comboStep st kv =
            { st with hasFullName := true, fields := st.fields ++ [kv.1] } from by
          simp [comboStep, h0, h1]]
        simp [ih, sigFullName, sigEmail, sigAddress, sigDevice, comboHit, comboFieldsR,
          h0, h1, e2, e3, e4]
      · by_cases h2 : condEmail kv = true
        · have hk := condEmail_key h2
          have e3 : condAddress kv = false := by simp [condAddress, hk]
          have e4 : condDevice kv = false := by simp [condDevice, hk]
          rw [show comboStep st kv =
              { st with hasEmail := true, fields := st.fields ++ [kv.1] } from by
            simp [comboStep, h0, h1, h2]]
          simp [ih, sigFullName, sigEmail, sigAddress, sigDevice, comboHit, comboFieldsR,
            h0, h1, h2, e3, e4]
        · by_cases h3 : condAddress kv = true
          · have hk := condAddress_key h3
            have e4 : condDevice kv = false := by simp [condDevice, hk]
            rw [show comboStep st kv =
                { st with hasAddress := true, fields := st.fields ++ [kv.1] } from by
              simp [comboStep, h0, h1, h2, h3]]
            simp [ih, sigFullName, sigEmail, sigAddress, sigDevice, comboHit, comboFieldsR,
              h0, h1, h2, h3, e4]
          · by_cases h4 : condDevice kv = true
            · rw [show comboStep st kv =
                  { st with hasDevice := true, fields := st.fields ++ [kv.1] } from by
                simp [comboStep, h0, h1, h2, h3, h4]]
              simp [ih, sigFullName, sigEmail, sigAddress, sigDevice, comboHit, comboFieldsR,
                h0, h1, h2, h3, h4]
            · rw [show comboStep st kv = st from by simp [comboStep, h0, h1, h2, h3, h4]]
              simp [ih, sigFullName, sigEmail, sigAddress, sigDevice, comboHit, comboFieldsR,
                h0, h1, h2, h3, h4]

theorem detect_combinatorial_eq (r : Record) :
    detect_combinatorial_pii r =
      (decide (2 ≤ boolSum [sigFullName r, sigEmail r, sigAddress r, sigDevice r,
          sigNameParts r]),
       (if sigNameParts r then comboFieldsR r ++ ["first_name", "last_name"]
        else comboFieldsR r),
       boolSum [sigFullName r, sigEmail r, sigAddress r, sigDevice r, sigNameParts r]) := by
  have h := foldl_comboStep r ⟨false, false, false, false, []⟩
  simp only [detect_combinatorial_pii, h]
  simp [sigNameParts]

theorem standFieldsR_sublist (r : Record) : List.Sublist (standFieldsR r) (keysOf r) := by
  induction r with
  | nil => simp [standFieldsR, keysOf]
  | cons kv t ih =>
    by_cases h : standHit kv = true
    · simpa [standFieldsR, keysOf, h] using ih.cons₂ kv.1
    · simpa [standFieldsR, keysOf, h] using ih.cons kv.1

theorem comboFieldsR_sublist (r : Record) : List.Sublist (comboFieldsR r) (keysOf r) := by
  induction r with
  | nil => simp [comboFieldsR, keysOf]
  | cons kv t ih =>
    by_cases h : comboHit kv = true
    · simpa [comboFieldsR, keysOf, h] using ih.cons₂ kv.1
    · simpa [comboFieldsR, keysOf, h] using ih.cons kv.1

theorem comboHit_key {kv : String × Value} (h : comboHit kv = true) :
    kv.1 = "name" ∨ kv.1 = "email" ∨ kv.1 = "address" ∨ kv.1 = "device_id" ∨
      kv.1 = "ip_address" := by
  by_cases h1 : condName kv = true
  · exact Or.inl (condName_key h1)
  by_cases h2 : condEmail kv = true
  · exact Or.inr (Or.inl (condEmail_key h2))
  by_cases h3 : condAddress kv = true
  · exact Or.inr (Or.inr (Or.inl (condAddress_key h3)))
  simp only [Bool.not_eq_true] at h1 h2 h3
  have h4 : condDevice kv = true := by
    simp [comboHit, h1, h2, h3] at h
    exact h.2
  simp only [condDevice, Bool.or_eq_true, beq_iff_eq] at h4
  tauto

theorem comboFieldsR_names (r : Record) : ∀ k ∈ comboFieldsR r,
    k = "name" ∨ k = "email" ∨ k = "address" ∨ k = "device_id" ∨ k = "ip_address" := by
  induction r with
  | nil => simp [comboFieldsR]
  | cons kv t ih =>
    intro k hk
    by_cases h : comboHit kv = true
    · simp [comboFieldsR, h] at hk
      rcases hk with hk | hk
      · subst hk
        exact comboHit_key h
      · exact ih k hk
    · simp [comboFieldsR, h] at hk
      exact ih k hk

theorem standFieldsR_nodup {r : Record} (h : (keysOf r).Nodup) :
    (standFieldsR r).Nodup :=
  (standFieldsR_sublist r).nodup h

theorem comboFields_nodup {r : Record} (h : (keysOf r).Nodup) :
    ((detect_combinatorial_pii r).2.1).Nodup := by
  rw [detect_combinatorial_eq]
  have hbase : (comboFieldsR r).Nodup := (comboFieldsR_sublist r).nodup h
  by_cases hs : sigNameParts r = true
  · simp only [hs, if_pos]
    refine hbase.append (by decide) ?_
    intro k hk hk2
    have := comboFieldsR_names r k hk
    simp at hk2
    rcases hk2 with hk2 | hk2 <;> subst hk2 <;> simp at this
  · simp [hs, hbase]

/-! Pointwise effect of the in-place masking loop of process_record. -/

theorem lookupR_map_mask (f k : String) : ∀ r : Record,
    lookupR (r.map fun kv => if kv.1 = f then (kv.1, mask_value f kv.2) else kv) k =
      if f = k then (lookupR r k).map (mask_value f) else lookupR r k := by
  intro r
  induction r with
  | nil => by_cases h : f = k <;> simp [lookupR, h]
  | cons kv t ih =>
    obtain ⟨k1, v1⟩ := kv
    rw [List.map_cons]
    by_cases hkf : k1 = f
    · subst hkf
      rw [show (if (k1, v1).1 = k1 then ((k1, v1).1, mask_value k1 (k1, v1).2)
          else (k1, v1)) = (k1, mask_value k1 v1) from by simp]
      by_cases hkk : k1 = k
      · subst hkk
        simp [lookupR]
      · simp [lookupR, hkk, ih]
    · rw [show (if (k1, v1).1 = f then ((k1, v1).1, mask_value f (k1, v1).2)
          else (k1, v1)) = (k1, v1) from by simp [hkf]]
      by_cases hkk : k1 = k
      · subst hkk
        have hfk : ¬f = k1 := fun h => hkf h.symm
        simp [lookupR, hfk]
      · simp [lookupR, hkk, ih]

theorem lookupR_maskField (r : Record) (f k : String) :
    lookupR (maskField r f) k =
      if f = k then (lookupR r k).map (mask_value f) else lookupR r k := by
  unfold maskField
  by_cases hg : (lookupR r f).isSome
  · simp only [hg, if_pos]
    exact lookupR_map_mask f k r
  · simp only [hg, Bool.false_eq_true, if_neg, if_false]
    by_cases h : f = k
    · subst h
      rw [Option.not_isSome_iff_eq_none] at hg
      simp [hg]
    · simp [h]

theorem lookupR_foldl_mask (fs : List String) : ∀ (r : Record) (k : String),
    lookupR (fs.foldl maskField r) k = (lookupR r k).map (applyMasks fs k) := by
  induction fs with
  | nil =>
    intro r k
    cases h : lookupR r k <;> simp [applyMasks, h]
  | cons f fs ih =>
    intro r k
    rw [List.foldl_cons, ih, lookupR_maskField]
    by_cases h : f = k
    · simp only [h, if_pos]
      rw [Option.map_map]
      cases lookupR r k <;> simp [applyMasks, h]
    · simp only [h, if_neg, if_false]
      cases lookupR r k <;> simp [applyMasks, h]

theorem applyMasks_not_mem {fs : List String} {k : String} (h : k ∉ fs) (v : Value) :
    applyMasks fs k v = v := by
  induction fs generalizing v with
  | nil => rfl
  | cons f fs ih =>
    have hf : ¬f = k := fun he => h (he ▸ List.mem_cons_self f fs)
    have ht : k ∉ fs := fun hm => h (List.mem_cons_of_mem f hm)
    simp [applyMasks, hf] at ih ⊢
    exact ih ht v

theorem applyMasks_nodup {fs : List String} {k : String} (h : fs.Nodup) (v : Value) :
    applyMasks fs k v = if k ∈ fs then mask_value k v else v := by
  induction fs generalizing v with
  | nil => simp [applyMasks]
  | cons f fs ih =>
    by_cases hf : f = k
    · subst hf
      have hnm : f ∉ fs := (List.nodup_cons.mp h).1
      have : applyMasks (f :: fs) f v = applyMasks fs f (mask_value f v) := by
        simp [applyMasks]
      rw [this, applyMasks_not_mem hnm]
      simp
    · have hstep : applyMasks (f :: fs) k v = applyMasks fs k v := by
        simp [applyMasks, hf]
      rw [hstep, ih (List.nodup_cons.mp h).2]
      have hkf : ¬k = f := fun he => hf he.symm
      simp [List.mem_cons, hkf]

theorem keysOf_maskField (r : Record) (f : String) : keysOf (maskField r f) = keysOf r := by
  unfold maskField
  by_cases hg : (lookupR r f).isSome
  · simp only [hg, if_pos, keysOf, List.map_map]
    refine List.map_congr_left ?_
    intro kv _
    by_cases h : kv.1 = f <;> simp [h]
  · simp [hg]

theorem keysOf_foldl_mask (fs : List String) : ∀ r : Record,
    keysOf (fs.foldl maskField r) = keysOf r := by
  induction fs with
  | nil => intro r; rfl
  | cons f fs ih =>
    intro r
    rw [List.foldl_cons, ih, keysOf_maskField]

theorem process_record_fst (r : Record) :
    (process_record r).1 =
      ((detect_standalone_pii r).1 || (detect_combinatorial_pii r).1) := by
  by_cases h : ((detect_standalone_pii r).1 || (detect_combinatorial_pii r).1) = true <;>
    simp [process_record, h]

theorem process_record_snd_pos (r : Record)
    (h : ((detect_standalone_pii r).1 || (detect_combinatorial_pii r).1) = true) :
    (process_record r).2 =
      (if (detect_combinatorial_pii r).1 then
        (detect_combinatorial_pii r).2.1.foldl maskField
          ((detect_standalone_pii r).2.foldl maskField r)
      else (detect_standalone_pii r).2.foldl maskField r) := by
  simp [process_record, h]

theorem process_record_snd_neg (r : Record)
    (h : ((detect_standalone_pii r).1 || (detect_combinatorial_pii r).1) = false) :
    (process_record r).2 = r := by
  simp [process_record, h]

/-! Helper lemmas about the matchers and the masking engine. -/

theorem boundaryAfter_iff (l : List Char) :
    boundaryAfter l = true ↔ l = [] ∨ ∃ c t, l = c :: t ∧ isWordChar c = false := by
  cases l with
  | nil => simp [boundaryAfter]
  | cons c t =>
    simp only [boundaryAfter, Bool.not_eq_true']
    constructor
    · intro h
      exact Or.inr ⟨c, t, rfl, h⟩
    · rintro (h | ⟨c2, t2, he, hw⟩)
      · exact absurd h (List.cons_ne_nil c t)
      · injection he with he1 he2
        subst he1
        exact hw

theorem digit_of_six_nine {c : Char} (h1 : '6' ≤ c) (h2 : c ≤ '9') : c.isDigit = true := by
  have h1v : ('6' : Char).val ≤ c.val := h1
  have h2v : c.val ≤ ('9' : Char).val := h2
  simp only [Char.isDigit, Bool.and_eq_true, decide_eq_true_eq, ge_iff_le]
  exact ⟨UInt32.le_trans (show (48 : UInt32) ≤ ('6' : Char).val by decide) h1v,
    UInt32.le_trans h2v (show ('9' : Char).val ≤ 57 by decide)⟩

theorem endAnchor_iff (l : List Char) : endAnchor l = true ↔ l = [] ∨ l = ['\n'] := by
  simp [endAnchor]

theorem splitAtChar_ne_nil (sep : Char) : ∀ l : List Char, splitAtChar sep l ≠ [] := by
  intro l
  cases l with
  | nil => simp [splitAtChar]
  | cons c rest =>
    by_cases h : c == sep
    · simp [splitAtChar, h]
    · simp only [splitAtChar, h, Bool.false_eq_true, if_false]
      cases hs : splitAtChar sep rest <;> simp

theorem splitAtChar_length (sep : Char) : ∀ l : List Char,
    (splitAtChar sep l).length = l.count sep + 1 := by
  intro l
  induction l with
  | nil => simp [splitAtChar]
  | cons c rest ih =>
    by_cases h : c == sep
    · have hc : c = sep := by simpa using h
      simp [splitAtChar, h, ih, List.count_cons, hc]
    · have hc : ¬c = sep := by simpa using h
      cases hs : splitAtChar sep rest with
      | nil => exact absurd hs (splitAtChar_ne_nil sep rest)
      | cons p ps =>
        rw [hs] at ih
        simp [splitAtChar, h, hs, List.count_cons, hc]
        simpa using ih

theorem getLast_drop : ∀ (l : List Char), l ≠ [] →
    ∃ c, l[l.length - 1]? = some c ∧ l.drop (l.length - 1) = [c]
  | [], h => absurd rfl h
  | [a], _ => ⟨a, rfl, rfl⟩
  | a :: b :: t, _ => by
    obtain ⟨c, hc1, hc2⟩ := getLast_drop (b :: t) (by simp)
    have hlen : (a :: b :: t).length - 1 = ((b :: t).length - 1) + 1 := by simp
    refine ⟨c, ?_, ?_⟩
    · rw [hlen, List.getElem?_cons_succ]
      exact hc1
    · rw [hlen, List.drop_succ_cons]
      exact hc2

theorem maskTokenChecked_eq (p : List Char) : maskTokenChecked p = some (maskToken p) := by
  unfold maskTokenChecked maskToken
  by_cases h : 1 < p.length
  · cases p with
    | nil => simp at h
    | cons a t =>
      have h2 : 0 < t.length := by
        simp only [List.length_cons] at h
        omega
      simp [h, h2]
  · simp [h]

theorem mapM_maskTokenChecked (ts : List (List Char)) :
    ts.mapM maskTokenChecked = some (ts.map maskToken) := by
  induction ts with
  | nil => rfl
  | cons p ts ih =>
    rw [List.mapM_cons, maskTokenChecked_eq, ih]
    rfl

theorem maskChecked_eq (key : String) (s : List Char) :
    maskChecked key s = some (maskChars key s) := by
  unfold maskChecked maskChars
  by_cases h1 : (key == "phone" || phoneMatch s) = true
  · simp only [h1, if_pos]
  simp only [h1, if_neg, Bool.false_eq_true, if_false]
  by_cases h2 : (key == "aadhar" || aadharMatch s) = true
  · simp only [h2, if_pos]
  simp only [h2, if_neg, Bool.false_eq_true, if_false]
  by_cases h3 : (key == "passport" || passportMatch s) = true
  · simp only [h3, if_pos]
    by_cases hl : 3 ≤ s.length
    · simp only [hl, if_pos]
      obtain ⟨c, hc1, hc2⟩ := getLast_drop s (by
        intro he
        rw [he] at hl
        simp at hl)
      cases s with
      | nil => simp at hl
      | cons a t =>
        rw [hc2, List.getElem?_cons_zero, hc1]
        simp
    · simp [hl]
  simp only [h3, if_neg, Bool.false_eq_true, if_false]
  by_cases h4 : (key == "upi_id" || upiMatch s) = true
  · simp only [h4, if_pos]
  simp only [h4, if_neg, Bool.false_eq_true, if_false]
  by_cases h5 : (key == "email" || emailMatch s) = true
  · simp only [h5, if_pos]
  simp only [h5, if_neg, Bool.false_eq_true, if_false]
  by_cases h6 : (key == "name" && fullNameMatch s) = true
  · simp only [h6, if_pos]
    rw [mapM_maskTokenChecked]
    rfl
  simp only [h6, if_neg, Bool.false_eq_true, if_false]
  by_cases h7 : (key == "first_name" || key == "last_name") = true
  · simp only [h7, if_pos]
    exact maskTokenChecked_eq s
  simp only [h7, if_neg, Bool.false_eq_true, if_false]
  by_cases h8 : (key == "address") = true
  · simp only [h8, if_pos]
  simp only [h8, if_neg, Bool.false_eq_true, if_false]
  by_cases h9 : (key == "device_id" || key == "ip_address") = true
  · simp only [h9, if_pos]
  simp only [h9, if_neg, Bool.false_eq_true, if_false]

theorem mem_takeWhile_pred {p : Char → Bool} : ∀ {l : List Char} {x : Char},
    x ∈ l.takeWhile p → p x = true := by
  intro l
  induction l with
  | nil => intro x hx; simp [List.takeWhile] at hx
  | cons a t ih =>
    intro x hx
    by_cases h : p a
    · rw [List.takeWhile_cons, if_pos h] at hx
      rcases List.mem_cons.mp hx with rfl | hx
      · exact h
      · exact ih hx
    · rw [List.takeWhile_cons, if_neg h] at hx
      simp at hx

theorem takeWhile_append_drop (p : Char → Bool) (l : List Char) :
    l = l.takeWhile p ++ l.drop (l.takeWhile p).length := by
  obtain ⟨t, ht⟩ := List.takeWhile_prefix (l := l) p
  set w := l.takeWhile p with hw
  rw [← ht, List.drop_left]

/-! Characterizations of the recognizers: each accepts exactly the strings
whose prefix, starting at position zero, is the full pattern followed by a
word boundary; only the full-name recognizer is anchored to the whole
string. -/

theorem is_phone_number_iff (s : String) :
    is_phone_number s = true ↔
      ∃ ds rest : List Char, s.data = ds ++ rest ∧ ds.length = 10 ∧
        (∀ c ∈ ds, c.isDigit = true) ∧
        (∃ c0 t, ds = c0 :: t ∧ '6' ≤ c0 ∧ c0 ≤ '9') ∧
        (rest = [] ∨ ∃ c t, rest = c :: t ∧ isWordChar c = false) := by
  unfold is_phone_number
  cases hd : s.data with
  | nil =>
    simp only [phoneMatch, Bool.false_eq_true, false_iff]
    rintro ⟨ds, rest, he, hlen, -, -, -⟩
    have := List.append_eq_nil.mp he.symm
    rw [this.1] at hlen
    simp at hlen
  | cons c rest0 =>
    simp only [phoneMatch]
    constructor
    · intro h
      simp only [Bool.and_eq_true, decide_eq_true_eq, List.all_eq_true] at h
      obtain ⟨⟨⟨h69, hlen⟩, hdig⟩, hb⟩ := h
      refine ⟨c :: rest0.take 9, rest0.drop 9, ?_, ?_, ?_, ?_, ?_⟩
      · rw [List.cons_append, List.take_append_drop]
      · simp [hlen]
      · intro x hx
        rcases List.mem_cons.mp hx with rfl | hx
        · exact digit_of_six_nine h69.1 h69.2
        · exact hdig x hx
      · exact ⟨c, rest0.take 9, rfl, h69.1, h69.2⟩
      · exact (boundaryAfter_iff _).mp hb
    · rintro ⟨ds, rest, he, hlen, hdig, ⟨c0, t, rfl, h6, h9⟩, hbnd⟩
      rw [List.cons_append] at he
      injection he with he1 he2
      subst he1
      subst he2
      have hlt : t.length = 9 := by
        simp only [List.length_cons] at hlen
        omega
      simp only [Bool.and_eq_true, decide_eq_true_eq, List.all_eq_true]
      refine ⟨⟨⟨⟨h6, h9⟩, ?_⟩, ?_⟩, ?_⟩
      · rw [List.take_left' hlt, hlt]
      · intro x hx
        rw [List.take_left' hlt] at hx
        exact hdig x (List.mem_cons_of_mem _ hx)
      · rw [List.drop_left' hlt]
        exact (boundaryAfter_iff rest).mpr hbnd

theorem is_aadhar_iff (s : String) :
    is_aadhar s = true ↔
      ∃ ds rest : List Char, s.data = ds ++ rest ∧ ds.length = 12 ∧
        (∀ c ∈ ds, c.isDigit = true) ∧
        (rest = [] ∨ ∃ c t, rest = c :: t ∧ isWordChar c = false) := by
  unfold is_aadhar aadharMatch
  constructor
  · intro h
    simp only [Bool.and_eq_true, decide_eq_true_eq, List.all_eq_true] at h
    obtain ⟨⟨hlen, hdig⟩, hb⟩ := h
    exact ⟨s.data.take 12, s.data.drop 12, (List.take_append_drop _ _).symm, hlen,
      hdig, (boundaryAfter_iff _).mp hb⟩
  · rintro ⟨ds, rest, he, hlen, hdig, hbnd⟩
    rw [he]
    simp only [Bool.and_eq_true, decide_eq_true_eq, List.all_eq_true]
    refine ⟨⟨?_, ?_⟩, ?_⟩
    · rw [List.take_left' hlen, hlen]
    · intro x hx
      rw [List.take_left' hlen] at hx
      exact hdig x hx
    · rw [List.drop_left' hlen]
      exact (boundaryAfter_iff rest).mpr hbnd

theorem is_passport_iff (s : String) :
    is_passport s = true ↔
      ∃ (c0 : Char) (ds rest : List Char), s.data = c0 :: (ds ++ rest) ∧
        c0.isUpper = true ∧ ds.length = 7 ∧ (∀ c ∈ ds, c.isDigit = true) ∧
        (rest = [] ∨ ∃ c t, rest = c :: t ∧ isWordChar c = false) := by
  unfold is_passport
  cases hd : s.data with
  | nil =>
    simp only [passportMatch, Bool.false_eq_true, false_iff]
    rintro ⟨c0, ds, rest, he, -⟩
    exact List.cons_ne_nil c0 _ he.symm
  | cons c rest0 =>
    simp only [passportMatch]
    constructor
    · intro h
      simp only [Bool.and_eq_true, decide_eq_true_eq, List.all_eq_true] at h
      obtain ⟨⟨⟨hu, hlen⟩, hdig⟩, hb⟩ := h
      refine ⟨c, rest0.take 7, rest0.drop 7, ?_, hu, hlen, hdig, (boundaryAfter_iff _).mp hb⟩
      rw [List.take_append_drop]
    · rintro ⟨c0, ds, rest, he, hu, hlen, hdig, hbnd⟩
      injection he with he1 he2
      subst he1
      subst he2
      simp only [Bool.and_eq_true, decide_eq_true_eq, List.all_eq_true]
      refine ⟨⟨⟨hu, ?_⟩, ?_⟩, ?_⟩
      · rw [List.take_left' hlen, hlen]
      · intro x hx
        rw [List.take_left' hlen] at hx
        exact hdig x hx
      · rw [List.drop_left' hlen]
        exact (boundaryAfter_iff rest).mpr hbnd

theorem is_full_name_shape (s : String) (h : is_full_name s = true) :
    ∃ c1 r1 c2 r2 rest, s.data = c1 :: (r1 ++ ' ' :: c2 :: (r2 ++ rest)) ∧
      c1.isUpper = true ∧ c2.isUpper = true ∧ 1 ≤ r1.length ∧ 1 ≤ r2.length ∧
      (∀ c ∈ r1, c.isLower = true) ∧ (∀ c ∈ r2, c.isLower = true) ∧
      (rest = [] ∨ rest = ['\n']) := by
  unfold is_full_name fullNameMatch at h
  cases hd : s.data with
  | nil => rw [hd] at h; simp at h
  | cons c1 rest1 =>
    rw [hd] at h
    rw [Bool.and_eq_true] at h
    obtain ⟨hu1, h⟩ := h
    rw [Bool.and_eq_true] at h
    obtain ⟨hr1, h⟩ := h
    split at h
    case h_2 => simp at h
    case h_1 c2 rest2 heq =>
      rw [Bool.and_eq_true] at h
      obtain ⟨hu2, h⟩ := h
      rw [Bool.and_eq_true] at h
      obtain ⟨hr2, hend⟩ := h
      refine ⟨c1, rest1.takeWhile Char.isLower, c2, rest2.takeWhile Char.isLower,
        rest2.dropWhile Char.isLower, ?_, hu1, hu2, ?_, ?_, ?_, ?_, ?_⟩
      · rw [List.takeWhile_append_dropWhile]
        congr 1
        conv_lhs => rw [← List.takeWhile_append_dropWhile (p := Char.isLower) (l := rest1)]
        rw [heq]
      · exact Nat.one_le_iff_ne_zero.mpr (by
          intro hz
          rw [decide_eq_true_eq] at hr1
          omega)
      · exact Nat.one_le_iff_ne_zero.mpr (by
          intro hz
          rw [decide_eq_true_eq] at hr2
          omega)
      · intro c hc
        exact mem_takeWhile_pred hc
      · intro c hc
        exact mem_takeWhile_pred hc
      · exact (endAnchor_iff _).mp hend

theorem wordChar_localChar {c : Char} (h : isWordChar c = true) :
    isEmailLocalChar c = true := by
  simp only [isWordChar, Bool.or_eq_true] at h
  simp only [isEmailLocalChar, Bool.or_eq_true]
  tauto

theorem is_upi_id_shape (s : String) (h : is_upi_id s = true) :
    ∃ u tail, s.data = u ++ '@' :: tail ∧ 1 ≤ u.length ∧
      (∀ c ∈ u, isWordChar c = true) ∧
      ∃ hdl ∈ upiHandles, ∃ rest, tail = hdl.data ++ rest ∧
        (rest = [] ∨ ∃ c t, rest = c :: t ∧ isWordChar c = false) := by
  unfold is_upi_id at h
  simp only [upiMatch, Bool.and_eq_true] at h
  obtain ⟨hne, hm⟩ := h
  split at hm
  case h_2 => simp at hm
  case h_1 tail heq =>
    rw [List.any_eq_true] at hm
    obtain ⟨hdl, hmem, hcond⟩ := hm
    rw [Bool.and_eq_true] at hcond
    obtain ⟨hpre, hbnd⟩ := hcond
    obtain ⟨rest, hrest⟩ := List.isPrefixOf_iff_prefix.mp hpre
    refine ⟨s.data.takeWhile isWordChar, tail, ?_, ?_, ?_, hdl, hmem, rest, hrest.symm, ?_⟩
    · conv_lhs => rw [takeWhile_append_drop isWordChar s.data]
      rw [heq]
    · rw [Bool.not_eq_true'] at hne
      have : s.data.takeWhile isWordChar ≠ [] := by
        intro hz
        rw [hz] at hne
        simp at hne
      exact Nat.one_le_iff_ne_zero.mpr (by
        intro hz
        exact this (List.eq_nil_of_length_eq_zero hz))
    · intro c hc
      exact mem_takeWhile_pred hc
    · rw [← hrest, List.drop_left] at hbnd
      exact (boundaryAfter_iff rest).mp hbnd

theorem is_email_shape (s : String) (h : is_email s = true) :
    ∃ u d a rest, s.data = u ++ '@' :: (d ++ '.' :: (a ++ rest)) ∧
      1 ≤ u.length ∧ 1 ≤ d.length ∧ 2 ≤ a.length ∧ (∀ c ∈ a, c.isAlpha = true) ∧
      (rest = [] ∨ ∃ c t, rest = c :: t ∧ isWordChar c = false) := by
  unfold is_email at h
  cases hd0 : s.data with
  | nil => rw [hd0] at h; simp [emailMatch] at h
  | cons c0 t0 =>
    rw [hd0] at h
    simp only [emailMatch, Bool.and_eq_true] at h
    obtain ⟨hw0, hm⟩ := h
    split at hm
    case h_2 => simp at hm
    case h_1 tail heq =>
      simp only [emailTailMatch, List.any_eq_true, List.mem_range] at hm
      obtain ⟨i, hin, hcond⟩ := hm
      rw [Bool.and_eq_true, Bool.and_eq_true] at hcond
      obtain ⟨⟨h1i, hdot⟩, halpha⟩ := hcond
      rw [decide_eq_true_eq] at h1i
      have hdot2 : tail[i]? = some '.' := by
        have := hdot
        simp only [beq_iff_eq] at this
        exact this
      obtain ⟨hilt, hget⟩ := List.getElem?_eq_some_iff.mp hdot2
      simp only [alphaRunBoundary, Bool.and_eq_true, decide_eq_true_eq] at halpha
      obtain ⟨h2a, hbnd⟩ := halpha
      refine ⟨(c0 :: t0).takeWhile isEmailLocalChar, tail.take i,
        (tail.drop (i + 1)).takeWhile Char.isAlpha,
        (tail.drop (i + 1)).dropWhile Char.isAlpha, ?_, ?_, ?_, h2a, ?_, ?_⟩
      · conv_lhs => rw [takeWhile_append_drop isEmailLocalChar (c0 :: t0)]
        rw [heq]
        congr 1
        congr 1
        conv_lhs => rw [← List.take_append_drop i tail]
        congr 1
        rw [List.drop_eq_getElem_cons hilt, hget, List.takeWhile_append_dropWhile]
      · have hloc : isEmailLocalChar c0 = true := wordChar_localChar hw0
        rw [List.takeWhile_cons, if_pos hloc]
        simp
      · have : (tail.take i).length = i := by
          rw [List.length_take]
          omega
        omega
      · intro c hc
        exact mem_takeWhile_pred hc
      · exact (boundaryAfter_iff _).mp hbnd

/-! Claim theorems. -/

/-- C1, counterexample: a record that is PII through the standalone classifier
only still has the field name in the combinatorial contributing list, yet
process_record leaves that field unmasked, even though the Masking Engine
would change it; the claim that every field of the deduplicated union is
replaced therefore fails. -/
theorem c1_counterexample :
    (process_record
        [("phone", Value.vstr "9876543210"), ("name", Value.vstr "Ravi Kumar")]).1 = true ∧
    "name" ∈ (detect_combinatorial_pii
        [("phone", Value.vstr "9876543210"), ("name", Value.vstr "Ravi Kumar")]).2.1 ∧
    lookupR (process_record
        [("phone", Value.vstr "9876543210"), ("name", Value.vstr "Ravi Kumar")]).2 "name" =
      some (Value.vstr "Ravi Kumar") ∧
    mask_value "name" (Value.vstr "Ravi Kumar") ≠ Value.vstr "Ravi Kumar" := by
  refine ⟨by decide, by decide, by decide, by decide⟩

/-- C1, amended: for a PII record with distinct keys, the redacted value of
every key is obtained from its original value by first masking it when the key
is in the standalone flagged list, and then, only when the combinatorial flag
itself is true, masking the possibly already masked value again when the key is
in the combinatorial contributing list; combinatorial fields are left
untouched when the combinatorial flag is false. -/
theorem c1_theorem (r : Record) (hnd : (keysOf r).Nodup)
    (hp : (process_record r).1 = true) (k : String) :
    lookupR (process_record r).2 k =
      (lookupR r k).map (fun v =>
        if (detect_combinatorial_pii r).1 = true ∧ k ∈ (detect_combinatorial_pii r).2.1 then
          mask_value k (if k ∈ (detect_standalone_pii r).2 then mask_value k v else v)
        else if k ∈ (detect_standalone_pii r).2 then mask_value k v else v) := by
  rw [process_record_fst] at hp
  rw [process_record_snd_pos r hp]
  have hsn : ((detect_standalone_pii r).2).Nodup := by
    rw [detect_standalone_eq]
    exact standFieldsR_nodup hnd
  have hcn : ((detect_combinatorial_pii r).2.1).Nodup := comboFields_nodup hnd
  by_cases hcb : (detect_combinatorial_pii r).1 = true
  · rw [if_pos hcb, lookupR_foldl_mask, lookupR_foldl_mask]
    cases hv : lookupR r k with
    | none => simp
    | some v =>
      simp only [Option.map_some']
      congr 1
      rw [applyMasks_nodup hsn, applyMasks_nodup hcn]
      simp [hcb]
  · have hcb2 : (detect_combinatorial_pii r).1 = false := by simpa using hcb
    rw [if_neg (by simp [hcb2]), lookupR_foldl_mask]
    cases hv : lookupR r k with
    | none => simp
    | some v =>
      simp only [Option.map_some']
      congr 1
      rw [applyMasks_nodup hsn]
      simp [hcb2]

/-- C1, witness: the amended statement evaluated on a concrete standalone-only
record. -/
theorem c1_witness :
    (keysOf [("phone", Value.vstr "9876543210")]).Nodup ∧
    (process_record [("phone", Value.vstr "9876543210")]).1 = true ∧
    lookupR (process_record [("phone", Value.vstr "9876543210")]).2 "phone" =
      (lookupR [("phone", Value.vstr "9876543210")] "phone").map (fun v =>
        if (detect_combinatorial_pii [("phone", Value.vstr "9876543210")]).1 = true ∧
            "phone" ∈ (detect_combinatorial_pii [("phone", Value.vstr "9876543210")]).2.1 then
          mask_value "phone"
            (if "phone" ∈ (detect_standalone_pii [("phone", Value.vstr "9876543210")]).2 then
              mask_value "phone" v else v)
        else if "phone" ∈ (detect_standalone_pii [("phone", Value.vstr "9876543210")]).2 then
          mask_value "phone" v else v) :=
  ⟨by decide, by decide, c1_theorem _ (by decide) (by decide) "phone"⟩

/-- C2, counterexample: strings consisting of the full pattern followed by an
extra non-word character are accepted by the phone, aadhar and passport
recognizers, so matches are not anchored to the entire value. -/
theorem c2_counterexample :
    is_phone_number (String.mk ("9876543210".data ++ ['!'])) = true ∧
    is_aadhar (String.mk ("123456789012".data ++ ['-'])) = true ∧
    is_passport (String.mk ("P1234567".data ++ ['!'])) = true := by
  refine ⟨by decide, by decide, by decide⟩

/-- C2, amended: every recognizer is anchored at the start of the value, but
for phone, aadhar, passport, upi_id and email the end of the pattern is a word
boundary rather than the end of the string, so trailing characters are
accepted whenever the character after the pattern is a non-word character; the
phone recognizer returns true exactly when the value begins with ten digits
whose first digit is in 6-9 followed by the end of the string or a non-word
character, and similarly for aadhar and passport; a true upi_id or email match
also only constrains a start-anchored prefix ending at a word boundary; only
the full-name recognizer is anchored to the entire value, up to one final
newline admitted by the dollar anchor. -/
theorem c2_theorem :
    (∀ s : String, is_phone_number s = true ↔
      ∃ ds rest : List Char, s.data = ds ++ rest ∧ ds.length = 10 ∧
        (∀ c ∈ ds, c.isDigit = true) ∧
        (∃ c0 t, ds = c0 :: t ∧ '6' ≤ c0 ∧ c0 ≤ '9') ∧
        (rest = [] ∨ ∃ c t, rest = c :: t ∧ isWordChar c = false)) ∧
    (∀ s : String, is_aadhar s = true ↔
      ∃ ds rest : List Char, s.data = ds ++ rest ∧ ds.length = 12 ∧
        (∀ c ∈ ds, c.isDigit = true) ∧
        (rest = [] ∨ ∃ c t, rest = c :: t ∧ isWordChar c = false)) ∧
    (∀ s : String, is_passport s = true ↔
      ∃ (c0 : Char) (ds rest : List Char), s.data = c0 :: (ds ++ rest) ∧
        c0.isUpper = true ∧ ds.length = 7 ∧ (∀ c ∈ ds, c.isDigit = true) ∧
        (rest = [] ∨ ∃ c t, rest = c :: t ∧ isWordChar c = false)) ∧
    (∀ s : String, is_upi_id s = true →
      ∃ u tail, s.data = u ++ '@' :: tail ∧ 1 ≤ u.length ∧
        (∀ c ∈ u, isWordChar c = true) ∧
        ∃ hdl ∈ upiHandles, ∃ rest, tail = hdl.data ++ rest ∧
          (rest = [] ∨ ∃ c t, rest = c :: t ∧ isWordChar c = false)) ∧
    (∀ s : String, is_email s = true →
      ∃ u d a rest, s.data = u ++ '@' :: (d ++ '.' :: (a ++ rest)) ∧
        1 ≤ u.length ∧ 1 ≤ d.length ∧ 2 ≤ a.length ∧ (∀ c ∈ a, c.isAlpha = true) ∧
        (rest = [] ∨ ∃ c t, rest = c :: t ∧ isWordChar c = false)) ∧
    (∀ s : String, is_full_name s = true →
      ∃ c1 r1 c2 r2 rest, s.data = c1 :: (r1 ++ ' ' :: c2 :: (r2 ++ rest)) ∧
        c1.isUpper = true ∧ c2.isUpper = true ∧ 1 ≤ r1.length ∧ 1 ≤ r2.length ∧
        (∀ c ∈ r1, c.isLower = true) ∧ (∀ c ∈ r2, c.isLower = true) ∧
        (rest = [] ∨ rest = ['\n'])) :=
  ⟨is_phone_number_iff, is_aadhar_iff, is_passport_iff, is_upi_id_shape,
    is_email_shape, is_full_name_shape⟩

/-- C2, witness: the phone characterization evaluated on a concrete value with
trailing characters after a word boundary. -/
theorem c2_witness :
    ∃ ds rest : List Char, ("9876543210 x" : String).data = ds ++ rest ∧
      ds.length = 10 ∧ (∀ c ∈ ds, c.isDigit = true) ∧
      (∃ c0 t, ds = c0 :: t ∧ '6' ≤ c0 ∧ c0 ≤ '9') ∧
      (rest = [] ∨ ∃ c t, rest = c :: t ∧ isWordChar c = false) :=
  (c2_theorem.1 "9876543210 x").mp (by decide)

/-- C3, counterexample: a thirteen character value dispatched by field name to
the aadhar rule is masked with exactly six X between the kept ends, so the
output length is twelve, not the input length. -/
theorem c3_counterexample :
    maskChars "aadhar" ("1234567890123" : String).data = ("123XXXXXX123" : String).data ∧
    (maskChars "aadhar" ("1234567890123" : String).data).length ≠
      ("1234567890123" : String).data.length := by
  refine ⟨by decide, by decide⟩

/-- C3, amended: a value dispatched to the aadhar masking rule keeps the first
three and last three characters and always inserts exactly six X between them
when its length is at least twelve, so the output length is always twelve and
equals the input length only for twelve character inputs; shorter values are
fully masked. -/
theorem c3_theorem (key : String) (s : List Char)
    (h1 : (key == "phone" || phoneMatch s) = false)
    (h2 : (key == "aadhar" || aadharMatch s) = true) :
    (12 ≤ s.length →
      maskChars key s = s.take 3 ++ List.replicate 6 'X' ++ s.drop (s.length - 3) ∧
      (maskChars key s).length = 12) ∧
    (s.length < 12 → maskChars key s = List.replicate s.length 'X') := by
  unfold maskChars
  rw [if_neg (by simp [h1]), if_pos h2]
  constructor
  · intro hl
    rw [if_pos hl]
    refine ⟨rfl, ?_⟩
    simp only [List.length_append, List.length_take, List.length_replicate,
      List.length_drop]
    omega
  · intro hl
    rw [if_neg (by omega)]

/-- C3, witness: the amended statement evaluated on a twelve digit aadhar
value. -/
theorem c3_witness :
    (("aadhar" == "phone" || phoneMatch ("123456789012" : String).data) = false) ∧
    (("aadhar" == "aadhar" || aadharMatch ("123456789012" : String).data) = true) ∧
    ((12 ≤ ("123456789012" : String).data.length →
      maskChars "aadhar" ("123456789012" : String).data =
        ("123456789012" : String).data.take 3 ++ List.replicate 6 'X' ++
          ("123456789012" : String).data.drop (("123456789012" : String).data.length - 3) ∧
      (maskChars "aadhar" ("123456789012" : String).data).length = 12) ∧
    (("123456789012" : String).data.length < 12 →
      maskChars "aadhar" ("123456789012" : String).data =
        List.replicate ("123456789012" : String).data.length 'X')) :=
  ⟨by decide, by decide, c3_theorem "aadhar" ("123456789012" : String).data
    (by decide) (by decide)⟩

theorem mem_comboFieldsR {r : Record} {kv : String × Value}
    (hmem : kv ∈ r) (hhit : comboHit kv = true) : kv.1 ∈ comboFieldsR r := by
  induction r with
  | nil => simp at hmem
  | cons kv2 t ih =>
    rcases List.mem_cons.mp hmem with rfl | hmem2
    · simp [comboFieldsR, hhit]
    · have : kv.1 ∈ comboFieldsR t := ih hmem2
      by_cases h : comboHit kv2 = true <;> simp [comboFieldsR, h, this]

/-- C4, counterexample: a record whose device_id value is null produces no
device signal and an empty contributing list, because the loop skips null
values before the presence test; the claim that presence alone suffices,
including for null values, fails. -/
theorem c4_counterexample :
    detect_combinatorial_pii [("device_id", Value.vnull)] = (false, [], 0) ∧
    "device_id" ∉ (detect_combinatorial_pii [("device_id", Value.vnull)]).2.1 := by
  refine ⟨by decide, by decide⟩

/-- C4, amended: for every record containing a field named device_id or
ip_address whose value is not null, the device signal is true without any
further validation of the value, the field name is in the contributing list,
and the signal count is at least one; null valued occurrences are skipped. -/
theorem c4_theorem (r : Record) (k : String) (v : Value)
    (hmem : (k, v) ∈ r) (hk : k = "device_id" ∨ k = "ip_address")
    (hv : v ≠ Value.vnull) :
    sigDevice r = true ∧ k ∈ (detect_combinatorial_pii r).2.1 ∧
      1 ≤ (detect_combinatorial_pii r).2.2 := by
  have hnn : v.isNull = false := by
    cases v with
    | vnull => exact absurd rfl hv
    | vstr s => rfl
    | vint n => rfl
  have hcd : condDevice (k, v) = true := by
    rcases hk with rfl | rfl <;> simp [condDevice]
  have hsig : sigDevice r = true := by
    rw [sigDevice, List.any_eq_true]
    exact ⟨(k, v), hmem, by simp [hnn, hcd]⟩
  have hhit : comboHit (k, v) = true := by
    simp [comboHit, hnn, hcd]
  refine ⟨hsig, ?_, ?_⟩
  · rw [detect_combinatorial_eq]
    have hbase : k ∈ comboFieldsR r := mem_comboFieldsR hmem hhit
    by_cases hs : sigNameParts r = true
    · rw [if_pos hs]
      exact List.mem_append_left _ hbase
    · rw [if_neg hs]
      exact hbase
  · rw [detect_combinatorial_eq]
    show 1 ≤ boolSum [sigFullName r, sigEmail r, sigAddress r, sigDevice r, sigNameParts r]
    rw [hsig]
    simp only [boolSum, List.foldl_cons, List.foldl_nil]
    split_ifs <;> omega

/-- C4, witness: the amended statement evaluated on a concrete record with one
non-null device_id field. -/
theorem c4_witness :
    ("device_id", Value.vstr "dev-1") ∈ [("device_id", Value.vstr "dev-1")] ∧
    (sigDevice [("device_id", Value.vstr "dev-1")] = true ∧
     "device_id" ∈ (detect_combinatorial_pii [("device_id", Value.vstr "dev-1")]).2.1 ∧
     1 ≤ (detect_combinatorial_pii [("device_id", Value.vstr "dev-1")]).2.2) :=
  ⟨by decide, c4_theorem [("device_id", Value.vstr "dev-1")] "device_id"
    (Value.vstr "dev-1") (by decide) (Or.inl rfl) (by decide)⟩

/-- C5: the combinatorial classifier flags a record exactly when at least two
of the five signals hold, where the signals are the declarative scans of the
record; in particular the record with both device_id and ip_address has one
true signal and is not flagged. -/
theorem c5_theorem :
    (∀ r : Record, ((detect_combinatorial_pii r).1 = true ↔
      2 ≤ boolSum [sigFullName r, sigEmail r, sigAddress r, sigDevice r,
        sigNameParts r])) ∧
    detect_combinatorial_pii
        [("device_id", Value.vstr "dev-1"), ("ip_address", Value.vstr "10.0.0.5")] =
      (false, ["device_id", "ip_address"], 1) := by
  constructor
  · intro r
    rw [detect_combinatorial_eq]
    simp
  · decide

/-- C6: every key whose value differs between the record and the redacted
record is a member of the standalone flagged list or of the combinatorial
contributing list; keys outside the two lists are never altered. -/
theorem c6_theorem (r : Record) (k : String)
    (hdiff : lookupR (process_record r).2 k ≠ lookupR r k) :
    k ∈ (detect_standalone_pii r).2 ∨ k ∈ (detect_combinatorial_pii r).2.1 := by
  by_contra hc
  push_neg at hc
  obtain ⟨h1, h2⟩ := hc
  apply hdiff
  by_cases hp : ((detect_standalone_pii r).1 || (detect_combinatorial_pii r).1) = true
  · rw [process_record_snd_pos r hp]
    by_cases hcb : (detect_combinatorial_pii r).1 = true
    · rw [if_pos hcb, lookupR_foldl_mask, lookupR_foldl_mask]
      cases hv : lookupR r k with
      | none => simp
      | some v => simp [applyMasks_not_mem h1, applyMasks_not_mem h2]
    · rw [if_neg hcb, lookupR_foldl_mask]
      cases hv : lookupR r k with
      | none => simp
      | some v => simp [applyMasks_not_mem h1]
  · rw [process_record_snd_neg r (by simpa using hp)]

/-- C6, witness: a masked phone field differs from its original and is indeed
in the standalone flagged list. -/
theorem c6_witness :
    lookupR (process_record [("phone", Value.vstr "9876543210")]).2 "phone" ≠
      lookupR [("phone", Value.vstr "9876543210")] "phone" ∧
    ("phone" ∈ (detect_standalone_pii [("phone", Value.vstr "9876543210")]).2 ∨
     "phone" ∈ (detect_combinatorial_pii [("phone", Value.vstr "9876543210")]).2.1) :=
  ⟨by decide, c6_theorem _ _ (by decide)⟩

/-- C7: when the processor reports no PII, the redacted record is exactly the
input record. -/
theorem c7_theorem (r : Record) (h : (process_record r).1 = false) :
    (process_record r).2 = r := by
  rw [process_record_fst] at h
  exact process_record_snd_neg r h

/-- C7, witness: the statement evaluated on a concrete non PII record. -/
theorem c7_witness :
    (process_record [("note", Value.vstr "hello")]).1 = false ∧
    (process_record [("note", Value.vstr "hello")]).2 = [("note", Value.vstr "hello")] :=
  ⟨by decide, c7_theorem _ (by decide)⟩

/-- C8: the redacted record always has exactly the key list of the input
record, in the same order; no key is introduced or removed.  The input record
itself is untouched, the processor builds a new list. -/
theorem c8_theorem (r : Record) : keysOf (process_record r).2 = keysOf r := by
  by_cases hp : ((detect_standalone_pii r).1 || (detect_combinatorial_pii r).1) = true
  · rw [process_record_snd_pos r hp]
    by_cases hcb : (detect_combinatorial_pii r).1 = true
    · rw [if_pos hcb, keysOf_foldl_mask, keysOf_foldl_mask]
    · rw [if_neg hcb, keysOf_foldl_mask]
  · rw [process_record_snd_neg r (by simpa using hp)]

/-- C9: the Masking Engine with every character indexing of the source made
explicit never fails and agrees with the total masking function; in particular
null values pass through unchanged and every slice or index is guarded. -/
theorem c9_theorem : ∀ (key : String) (v : Value),
    maskValueChecked key v = some (mask_value key v) := by
  intro key v
  cases v with
  | vnull => rfl
  | vstr s => simp [maskValueChecked, mask_value, maskChecked_eq]
  | vint n => simp [maskValueChecked, mask_value, maskChecked_eq]

/-- C10: a value dispatched to the upi or email masking rule whose character
list contains at least two at signs splits into more than two parts, so the
rule returns the full mask of X characters of the same length, without
preserving the domain. -/
theorem c10_theorem (key : String) (s : List Char)
    (h1 : (key == "phone" || phoneMatch s) = false)
    (h2 : (key == "aadhar" || aadharMatch s) = false)
    (h3 : (key == "passport" || passportMatch s) = false)
    (h4 : (key == "upi_id" || upiMatch s) = true ∨ (key == "email" || emailMatch s) = true)
    (hat : 2 ≤ List.count '@' s) :
    maskChars key s = List.replicate s.length 'X' := by
  have hlen : 3 ≤ (splitAtChar '@' s).length := by
    rw [splitAtChar_length]
    omega
  have hmatch : (match splitAtChar '@' s with
      | [u, d] => maskLocalPart u ++ '@' :: d
      | _ => List.replicate s.length 'X') = List.replicate s.length 'X' := by
    cases hs : splitAtChar '@' s with
    | nil => rfl
    | cons a t =>
      cases t with
      | nil => rfl
      | cons b t2 =>
        cases t2 with
        | nil =>
          rw [hs] at hlen
          simp at hlen
        | cons c t3 => rfl
  unfold maskChars
  rw [if_neg (by simp [h1]), if_neg (by simp [h2]), if_neg (by simp [h3])]
  rcases h4 with h4 | h4
  · rw [if_pos h4]
    exact hmatch
  · by_cases h4u : (key == "upi_id" || upiMatch s) = true
    · rw [if_pos h4u]
      exact hmatch
    · rw [if_neg h4u, if_pos h4]
      exact hmatch

/-- C10, witness: the statement evaluated on a upi field holding a value with
two at signs. -/
theorem c10_witness :
    (("upi_id" == "phone" || phoneMatch ("a@b@c" : String).data) = false) ∧
    2 ≤ List.count '@' ("a@b@c" : String).data ∧
    maskChars "upi_id" ("a@b@c" : String).data =
      List.replicate ("a@b@c" : String).data.length 'X' :=
  ⟨by decide, by decide, c10_theorem "upi_id" ("a@b@c" : String).data (by decide)
    (by decide) (by decide) (Or.inl (by decide)) (by decide)⟩

end PII
